import Mathlib

/-!
# Verification of the bitcoin candlestick dashboard core

A shallow embedding, in Lean 4, of the core of `src/main.rs`: the tick
generator's candle construction, the per-instrument rolling window and
price-delta bookkeeping of the consumer loop, the keyboard selection
cycling, the quit handling, and the two currency formatters
(`format_usd`, `format_idr`).  `f64` values are idealised as rationals,
with an explicit constructor for each non-finite class; the fallible
string operations of the formatters additionally get `Option`-returning
variants that return `none` exactly where the original could panic.
-/

-- Batteries marks the `Rat` field operations `@[irreducible]`, which blocks
-- `decide`/`rfl` evaluation of concrete rational computations; restore the
-- default reducibility so the formatters below are executable in proofs.
set_option allowUnsafeReducibility true in
attribute [semireducible] Rat.ofScientific Rat.mul Rat.inv Rat.add Rat.sub

namespace Chart

/-- Model of an `f64`: a finite rational or one of the non-finite values. -/
inductive F64 where
  | finite (q : ℚ)
  | nan
  | inf
  | negInf
deriving DecidableEq

/-- Model of `f64::is_finite`. -/
def F64.isFinite : F64 → Bool
  | .finite _ => true
  | _ => false

/-- Model of `f64::is_nan`. -/
def F64.isNan : F64 → Bool
  | .nan => true
  | _ => false

/-- Model of `f64::is_infinite`. -/
def F64.isInfinite : F64 → Bool
  | .inf => true
  | .negInf => true
  | _ => false

/-- The `Candle` struct of `main.rs` (finite fields, as produced by the
generator). `open` is a Lean keyword, hence `open_`. -/
structure Candle where
  time : ℤ
  open_ : ℚ
  high : ℚ
  low : ℚ
  close : ℚ
  volume : ℚ
deriving DecidableEq

/-- Round to nearest, ties to even: the rounding Rust's `{:.p}` float
formatting applies at the requested precision. -/
def roundHalfEven (q : ℚ) : ℤ :=
  let f := q.floor
  let r := q - (f : ℚ)
  if r < 1/2 then f
  else if 1/2 < r then f + 1
  else if f % 2 = 0 then f else f + 1

/-- Round to nearest, ties away from zero: the semantics of `f64::round`. -/
def roundHalfAway (q : ℚ) : ℤ :=
  if 0 ≤ q then (q + 1/2).floor else -(-q + 1/2).floor

/-- One step of decimal digit extraction, fuelled (the fuel only bounds the
iteration count; extraction stops at `n = 0`).  Mirrors integer `to_string`. -/
def natDigitsAux : ℕ → ℕ → List Char → List Char
  | 0, _, acc => acc
  | fuel + 1, n, acc =>
    if n = 0 then acc else natDigitsAux fuel (n / 10) (Nat.digitChar (n % 10) :: acc)

/-- Decimal digit string of a natural number, most significant first. -/
def natDigits (n : ℕ) : List Char :=
  if n = 0 then ['0'] else natDigitsAux n n []

/-- Decimal string of an integer, as `i64::to_string` renders it. -/
def intChars (n : ℤ) : List Char :=
  (if n < 0 then ['-'] else []) ++ natDigits n.natAbs

/-- Chunks of at most three characters, taken from the front: the effect of
Rust's `as_bytes().chunks(3)` on an ASCII string. -/
def chunk3 : List Char → List (List Char)
  | [] => []
  | a :: b :: c :: rest => [a, b, c] :: chunk3 rest
  | l => [l]

/-- The grouping chain of `format_usd` — reverse, chunk in threes, join with a
separator, reverse back — inserting `sep` every three characters counting from
the right.  (With `sep = '.'` this is also the grouping the spec describes for
the IDR formatter.) -/
def groupRight (sep : Char) (s : List Char) : List Char :=
  (List.intercalate [sep] (chunk3 s.reverse)).reverse

/-- Rust's `str::split('.')` on a character list. -/
def splitOnDot : List Char → List (List Char)
  | [] => [[]]
  | c :: rest =>
    if c = '.' then [] :: splitOnDot rest
    else
      match splitOnDot rest with
      | [] => [[c]]
      | p :: ps => (c :: p) :: ps

/-- Integer and fractional digit strings of `q` rounded to `k` decimals
(ties to even), the fractional part holding exactly `k` digits. -/
def fixedParts (q : ℚ) (k : ℕ) : List Char × List Char :=
  let ds := natDigits (roundHalfEven (q * (10 : ℚ) ^ k)).natAbs
  let s := List.replicate (k + 1 - ds.length) '0' ++ ds
  (s.take (s.length - k), s.drop (s.length - k))

/-- Rust's fixed-precision formatting `format!` with a `{:.k}` spec, on the
rational idealisation of the `f64` argument. -/
def fmtFixed (q : ℚ) (k : ℕ) : List Char :=
  (if roundHalfEven (q * (10 : ℚ) ^ k) < 0 then ['-'] else []) ++
    (if k = 0 then natDigits (roundHalfEven (q * (10 : ℚ) ^ k)).natAbs
     else (fixedParts q k).1 ++ '.' :: (fixedParts q k).2)

/-- The `format_usd` function of `main.rs`: magnitude suffixes B/M/K, two or
four decimals by magnitude, and — on the `0.10 ≤ |x| < 1000` path — comma
grouping applied to the part of the formatted string before the decimal
point.  Out-of-range indexing (`parts[i]`) is rendered total here with a `[]`
default; `format_usd_checked` below models the panics faithfully. -/
def format_usd (price : F64) : String :=
  match price with
  | .finite p =>
    if p = 0 then "$0.00"
    else
      let abs_price := |p|
      let sign : List Char := if p < 0 then ['-'] else []
      let formatted : List Char :=
        if abs_price ≥ 1000000000 then sign ++ fmtFixed (abs_price / 1000000000) 2 ++ ['B']
        else if abs_price ≥ 1000000 then sign ++ fmtFixed (abs_price / 1000000) 2 ++ ['M']
        else if abs_price ≥ 1000 then sign ++ fmtFixed (abs_price / 1000) 2 ++ ['K']
        else if abs_price ≥ 1/10 then sign ++ fmtFixed abs_price 2
        else sign ++ fmtFixed abs_price 4
      if abs_price < 1000 ∧ abs_price ≥ 1/10 then
        String.mk ('$' :: groupRight ',' ((splitOnDot formatted).headD [])
          ++ '.' :: (splitOnDot formatted).getD 1 [])
      else
        String.mk ('$' :: formatted)
  | _ => "Invalid"

/-- The value of `i64::MIN`. -/
def i64_min : ℤ := -(2 ^ 63)

/-- The value of `i64::MAX`. -/
def i64_max : ℤ := 2 ^ 63 - 1

/-- Rust's saturating float-to-integer cast `as i64`, on a finite value
already rounded to an integer. -/
def castI64 (n : ℤ) : ℤ := max i64_min (min i64_max n)

/-- The `while s.len() > 3` loop of `format_idr`, peeling three characters
off the right end per iteration; the fuel argument only bounds the number of
iterations. -/
def idrLoopF : ℕ → List Char → List Char → List Char
  | 0, s, result => s ++ result
  | fuel + 1, s, result =>
    if s.length > 3 then
      idrLoopF fuel (s.take (s.length - 3)) ('.' :: s.drop (s.length - 3) ++ result)
    else s ++ result

/-- The `format_idr` function of `main.rs`: round, cast to `i64`, group the
resulting decimal string (sign included) with `.` every three characters from
the right. -/
def format_idr (price : F64) : String :=
  match price with
  | .finite p =>
    let s := intChars (castI64 (roundHalfAway p))
    String.mk (idrLoopF s.length s [])
  | _ => "Invalid"

/-- The IDR formatting as the specification words it: round to the nearest
integer, insert a `.` grouping separator every 3 digits from the right of the
digit string, prefix a `-` for negative values, no magnitude suffix and no
decimals; non-finite input yields `"Invalid"`. -/
def format_idr_spec (price : F64) : String :=
  match price with
  | .finite p =>
    let r := roundHalfAway p
    String.mk ((if r < 0 then ['-'] else []) ++ groupRight '.' (natDigits r.natAbs))
  | _ => "Invalid"

/-- Variant of `format_usd` with each operation that can panic in the source made
explicit: the `parts[0]` / `parts[1]` indexings return `none` when out of
range, and the `from_utf8(chunk).unwrap()` reconstruction demands the grouped
string be ASCII (chunking an ASCII byte string at any offset stays valid
UTF-8, so ASCII content is the sufficient condition the source relies on). -/
def format_usd_checked (price : F64) : Option String :=
  match price with
  | .finite p =>
    if p = 0 then some "$0.00"
    else
      let abs_price := |p|
      let sign : List Char := if p < 0 then ['-'] else []
      let formatted : List Char :=
        if abs_price ≥ 1000000000 then sign ++ fmtFixed (abs_price / 1000000000) 2 ++ ['B']
        else if abs_price ≥ 1000000 then sign ++ fmtFixed (abs_price / 1000000) 2 ++ ['M']
        else if abs_price ≥ 1000 then sign ++ fmtFixed (abs_price / 1000) 2 ++ ['K']
        else if abs_price ≥ 1/10 then sign ++ fmtFixed abs_price 2
        else sign ++ fmtFixed abs_price 4
      if abs_price < 1000 ∧ abs_price ≥ 1/10 then
        match (splitOnDot formatted)[0]?, (splitOnDot formatted)[1]? with
        | some p0, some p1 =>
          if p0.all (fun ch => ch.toNat < 128) then
            some (String.mk ('$' :: groupRight ',' p0 ++ '.' :: p1))
          else none
        | _, _ => none
      else some (String.mk ('$' :: formatted))
  | _ => some "Invalid"

/-- Variant of `format_idr` with the byte-boundary requirements of `&s[len-3..]` and
`truncate` made explicit: both demand char boundaries, guaranteed when the
string is ASCII. -/
def format_idr_checked (price : F64) : Option String :=
  match price with
  | .finite p =>
    let s := intChars (castI64 (roundHalfAway p))
    if s.all (fun ch => ch.toNat < 128) then
      some (String.mk (idrLoopF s.length s []))
    else none
  | _ => some "Invalid"

/-- The fixed market list of `main.rs`. -/
def markets : List String := ["USD/BTC", "USD/ETH", "IDR/BTC", "IDR/ETH"]

/-- The per-market volatility scale of the generator thread. -/
def volatility_factor (market : String) : ℚ :=
  if market = "USD/BTC" then 100
  else if market = "USD/ETH" then 10
  else if market = "IDR/BTC" then 1000000
  else if market = "IDR/ETH" then 100000
  else 1

/-- The per-market volume scale of the generator thread. -/
def volume_factor (market : String) : ℚ :=
  if market = "USD/BTC" ∨ market = "IDR/BTC" then 5
  else if market = "USD/ETH" ∨ market = "IDR/ETH" then 20
  else 1

/-- The uniform draws one generator-thread iteration takes for one market:
`movement ∈ [-1, 1)` (scaled by the volatility factor afterwards),
`highDraw, lowDraw ∈ [0, 0.2·volatilityFactor)`, `volumeDraw ∈ [100, 1000)`. -/
structure GenDraws where
  movement : ℚ
  highDraw : ℚ
  lowDraw : ℚ
  volumeDraw : ℚ

/-- One candle of the generator thread's per-market step, as a function of the
current price, the logical time and the four random draws; returns the candle
together with the updated running price. -/
def genCandle (market : String) (price : ℚ) (time : ℤ) (d : GenDraws) : Candle × ℚ :=
  let open_ := price
  let movement := d.movement * volatility_factor market
  let price' := price + movement
  let high := max open_ price' + d.highDraw
  let low := min open_ price' - d.lowDraw
  let close := price'
  let volume := d.volumeDraw * volume_factor market
  (⟨time, open_, high, low, close, volume⟩, price')

/-- Pointwise insertion into a map modelled as a function: the effect of
`HashMap::insert` (and of assignment through `get_mut`). -/
def mapInsert {α : Type} (m : String → Option α) (k : String) (v : α) :
    String → Option α :=
  fun k' => if k' = k then some v else m k'

/-- Append a candle to a window and evict index 0 when the length exceeds 30:
the window part of the `Message::NewCandle` handler. -/
def pushWindow (candles : List Candle) (candle : Candle) : List Candle :=
  let pushed := candles ++ [candle]
  if pushed.length > 30 then pushed.eraseIdx 0 else pushed

/-- The consumer-side state: `data`, `price_changes` and `latest_price_map`
of `main`, each a map keyed by market name. -/
structure Store where
  data : String → Option (List Candle)
  price_changes : String → Option ℚ
  latest_price_map : String → Option ℚ

/-- The `Message::NewCandle` arm of the event loop: update the price delta
from the previously newest candle if the window is known and non-empty, push
into the window with FIFO eviction, and unconditionally record the close in
`latest_price_map`. -/
def ingest (st : Store) (market : String) (candle : Candle) : Store :=
  let st' :=
    match st.data market with
    | some candles =>
      let pcs :=
        match candles.getLast? with
        | some last_candle =>
          match st.price_changes market with
          | some _ => mapInsert st.price_changes market (candle.close - last_candle.close)
          | none => st.price_changes
        | none => st.price_changes
      { st with
          data := mapInsert st.data market (pushWindow candles candle)
          price_changes := pcs }
    | none => st
  { st' with latest_price_map := mapInsert st'.latest_price_map market candle.close }

/-- The message type of the producer/consumer channel. -/
inductive Message where
  | newCandle (market : String) (candle : Candle)
  | quit

/-- The key events the loop reacts to (`_ => {}` collapses all others). -/
inductive KeyIn where
  | charQ
  | down
  | up
  | other

/-- The mutable state of the dashboard loop. -/
structure LoopState where
  store : Store
  selected_market : ℕ
  should_quit : Bool

/-- The `rx.try_recv` arm of a loop iteration. -/
def handleMsg (st : LoopState) : Message → LoopState
  | .newCandle market candle => { st with store := ingest st.store market candle }
  | .quit => { st with should_quit := true }

/-- The key-event arm of a loop iteration. -/
def handleKey (st : LoopState) : KeyIn → LoopState
  | .charQ => { st with should_quit := true }
  | .down => { st with selected_market := (st.selected_market + 1) % markets.length }
  | .up =>
    { st with
        selected_market :=
          if st.selected_market = 0 then markets.length - 1
          else st.selected_market - 1 }
  | .other => st

/-- One iteration of the `while !should_quit` body: drain at most one message,
then handle at most one polled key event. -/
def loopIter (st : LoopState) (msg : Option Message) (key : Option KeyIn) : LoopState :=
  let st1 :=
    match msg with
    | some m => handleMsg st m
    | none => st
  match key with
  | some k => handleKey st1 k
  | none => st1

/-- The event loop: the guard `!should_quit` is tested before every iteration;
each list entry supplies what that iteration would observe. -/
def runLoop (st : LoopState) : List (Option Message × Option KeyIn) → LoopState
  | [] => st
  | e :: es => if st.should_quit then st else runLoop (loopIter st e.1 e.2) es

/-- A concrete candle, used to instantiate universally quantified theorems. -/
def candle0 : Candle := ⟨0, 1, 3, 0, 2, 5⟩

/-- A second concrete candle. -/
def candle1 : Candle := ⟨60, 2, 4, 1, 3, 6⟩

/-- A concrete store holding one registered market with a one-candle window. -/
def store1 : Store where
  data := fun m => if m = "USD/BTC" then some [candle0] else none
  price_changes := fun m => if m = "USD/BTC" then some 0 else none
  latest_price_map := fun _ => none

/-- A concrete loop state over `store1`. -/
def ls0 : LoopState := ⟨store1, 0, false⟩

example : natDigits 1729998000 = ['1','7','2','9','9','9','8','0','0','0'] := by decide
example : intChars (-123) = ['-','1','2','3'] := by decide
example : roundHalfEven (12345/100) = 123 := by decide
example : roundHalfEven (999/2) = 500 := by decide
example : roundHalfAway (-5/2) = -3 := by decide

example : format_usd (.finite 0) = "$0.00" := by decide
example : format_usd (.finite 0.05) = "$0.0500" := by decide
example : format_usd (.finite 999.5) = "$999.50" := by decide
example : format_usd (.finite 1234.5) = "$1.23K" := by decide
example : format_usd (.finite 1000000) = "$1.00M" := by decide
example : format_usd .nan = "Invalid" := by decide
example : format_usd (.finite (-999.5)) = "$-,999.50" := by decide
example : format_usd (.finite (-99.5)) = "$-99.50" := by decide
example : format_idr (.finite 1729998000) = "1.729.998.000" := by decide
example : format_idr (.finite 0) = "0" := by decide
example : format_idr (.finite (-123)) = "-.123" := by decide
example : format_idr (.finite (-1234)) = "-1.234" := by decide

/-- Bridge lemma: `Rat.floor` is the `Int.floor` of the rational. -/
theorem ratFloor_eq_floor (q : ℚ) : q.floor = ⌊q⌋ := by
  rw [Rat.floor_def', Rat.floor_def]


/-- The per-market volume scale is positive for every market string. -/
theorem volume_factor_pos (market : String) : 0 < volume_factor market := by
  unfold volume_factor
  split_ifs <;> norm_num

/-- The net effect of `k` pushes into an initially empty window: the window
is the suffix of the last `30` pushed candles, in push order. -/
theorem foldl_pushWindow_drop (ks : List Candle) :
    List.foldl pushWindow [] ks = ks.drop (ks.length - 30) := by
  induction ks using List.reverseRecOn with
  | nil => rfl
  | append_singleton ks c ih =>
    rw [List.foldl_append, List.foldl_cons, List.foldl_nil, ih]
    unfold pushWindow
    by_cases h30 : 30 ≤ ks.length
    · have hlen : (ks.drop (ks.length - 30)).length = 30 := by
        rw [List.length_drop]; omega
      rw [if_pos (by simp [hlen])]
      obtain ⟨d, ds, hd⟩ : ∃ d ds, ks.drop (ks.length - 30) = d :: ds := by
        cases hc : ks.drop (ks.length - 30) with
        | nil => rw [hc] at hlen; simp at hlen
        | cons d ds => exact ⟨d, ds, rfl⟩
      have hds : ds = ks.drop (ks.length - 29) := by
        have := congrArg List.tail hd
        rw [List.tail_drop] at this
        have h29 : ks.length - 30 + 1 = ks.length - 29 := by omega
        rw [h29] at this
        exact this.symm
      rw [hd, List.cons_append, List.eraseIdx_cons_zero, hds]
      have hle : ks.length - 29 ≤ ks.length := by omega
      have h29' : (ks ++ [c]).length - 30 = ks.length - 29 := by
        simp
      rw [h29', List.drop_append_of_le_length hle]
    · have hd0 : ks.length - 30 = 0 := by omega
      have hd1 : (ks ++ [c]).length - 30 = 0 := by simp; omega
      rw [if_neg (by simp [List.length_drop]; omega), hd0, hd1]
      simp

/-- C1: after `k` ingestions into an initially empty window the window holds
exactly the most recent `min k 30` ingested candles in ingestion order
(appending, and evicting index 0 whenever the length would exceed 30),
so its length is `min k 30`. -/
theorem c1_window_fifo (ks : List Candle) :
    List.foldl pushWindow [] ks = ks.drop (ks.length - 30) ∧
    (List.foldl pushWindow [] ks).length = min ks.length 30 := by
  refine ⟨foldl_pushWindow_drop ks, ?_⟩
  rw [foldl_pushWindow_drop ks, List.length_drop]
  omega

/-- C2: every generated candle has `low ≤ min open close`,
`max open close ≤ high` and `0 ≤ volume`, for every market, price, time and
draws within the generator's uniform ranges. -/
theorem c2_candle_invariants (market : String) (price : ℚ) (time : ℤ) (d : GenDraws)
    (hHigh : 0 ≤ d.highDraw) (hLow : 0 ≤ d.lowDraw) (hVol : 100 ≤ d.volumeDraw) :
    (genCandle market price time d).1.low ≤
        min (genCandle market price time d).1.open_ (genCandle market price time d).1.close ∧
    max (genCandle market price time d).1.open_ (genCandle market price time d).1.close ≤
        (genCandle market price time d).1.high ∧
    0 ≤ (genCandle market price time d).1.volume := by
  refine ⟨?_, ?_, ?_⟩ <;> simp only [genCandle]
  · linarith
  · linarith
  · exact mul_nonneg (by linarith) (volume_factor_pos market).le

/-- Witness for C2 on `USD/BTC` with the spec's seed price and concrete
draws inside the uniform ranges. -/
theorem c2_candle_invariants_witness :
    (0 : ℚ) ≤ 1 ∧ (0 : ℚ) ≤ 2 ∧ (100 : ℚ) ≤ 500 ∧
    ((genCandle "USD/BTC" 103879 0 ⟨1/2, 1, 2, 500⟩).1.low ≤
        min (genCandle "USD/BTC" 103879 0 ⟨1/2, 1, 2, 500⟩).1.open_
          (genCandle "USD/BTC" 103879 0 ⟨1/2, 1, 2, 500⟩).1.close ∧
      max (genCandle "USD/BTC" 103879 0 ⟨1/2, 1, 2, 500⟩).1.open_
          (genCandle "USD/BTC" 103879 0 ⟨1/2, 1, 2, 500⟩).1.close ≤
        (genCandle "USD/BTC" 103879 0 ⟨1/2, 1, 2, 500⟩).1.high ∧
      0 ≤ (genCandle "USD/BTC" 103879 0 ⟨1/2, 1, 2, 500⟩).1.volume) :=
  ⟨by norm_num, by norm_num, by norm_num,
    c2_candle_invariants "USD/BTC" 103879 0 ⟨1/2, 1, 2, 500⟩
      (by norm_num) (by norm_num) (by norm_num)⟩

/-- C3: the USD formatter's boundary table, including all three non-finite
inputs. -/
theorem c3_usd_boundary_table :
    format_usd (.finite 0) = "$0.00" ∧
    format_usd (.finite 0.05) = "$0.0500" ∧
    format_usd (.finite 999.5) = "$999.50" ∧
    format_usd (.finite 1234.5) = "$1.23K" ∧
    format_usd (.finite 1000000) = "$1.00M" ∧
    format_usd .nan = "Invalid" ∧
    format_usd .inf = "Invalid" ∧
    format_usd .negInf = "Invalid" := by
  refine ⟨by decide, by decide, by decide, by decide, by decide, rfl, rfl, rfl⟩

/-- C6: ingesting into a known non-empty window stores
`candle.close - previous_last.close` as the price change; ingesting into a
known empty window leaves the stored price change untouched. -/
theorem c6_price_delta (st : Store) (market : String) (c : Candle)
    (w : List Candle) (pc : ℚ)
    (hw : st.data market = some w) (hpc : st.price_changes market = some pc) :
    (∀ p, w.getLast? = some p →
      (ingest st market c).price_changes market = some (c.close - p.close)) ∧
    (w = [] → (ingest st market c).price_changes market = some pc) := by
  unfold ingest
  rw [hw]
  dsimp only
  constructor
  · intro p hp
    rw [hp, hpc]
    simp [mapInsert]
  · intro hnil
    subst hnil
    simpa using hpc

/-- Witness for C6: ingesting `candle1` after `candle0` stores their close
difference. -/
theorem c6_price_delta_witness :
    store1.data "USD/BTC" = some [candle0] ∧
    store1.price_changes "USD/BTC" = some 0 ∧
    (ingest store1 "USD/BTC" candle1).price_changes "USD/BTC"
      = some (candle1.close - candle0.close) :=
  ⟨by decide, by decide,
    (c6_price_delta store1 "USD/BTC" candle1 [candle0] 0 (by decide) (by decide)).1
      candle0 rfl⟩

/-- C7: with the four-market list, Down cycles `i ↦ (i+1) % 4` (so `3 ↦ 0`),
Up maps `0 ↦ 3` and otherwise `i ↦ i-1`, and every key event keeps the
selected index in range. -/
theorem c7_selection_cycles (st : LoopState) (h : st.selected_market < markets.length) :
    markets.length = 4 ∧
    (∀ k, (handleKey st k).selected_market < markets.length) ∧
    (handleKey st .down).selected_market = (st.selected_market + 1) % markets.length ∧
    (st.selected_market = markets.length - 1 → (handleKey st .down).selected_market = 0) ∧
    (st.selected_market = 0 → (handleKey st .up).selected_market = markets.length - 1) ∧
    (st.selected_market ≠ 0 → (handleKey st .up).selected_market = st.selected_market - 1) := by
  have hm : markets.length = 4 := rfl
  have h4 : st.selected_market < 4 := by rw [hm] at h; exact h
  refine ⟨hm, ?_, rfl, ?_, ?_, ?_⟩
  · intro k
    cases k with
    | charQ => simpa [handleKey] using h
    | down => simp only [handleKey, hm]; omega
    | up => simp only [handleKey, hm]; split <;> omega
    | other => simpa [handleKey] using h
  · intro h0
    rw [hm] at h0
    simp only [handleKey, hm, h0]
  · intro h0
    simp only [handleKey, if_pos h0]
  · intro h0
    simp only [handleKey, if_neg h0]

/-- Witness for C7 at the initial selection index. -/
theorem c7_selection_cycles_witness :
    ls0.selected_market < markets.length ∧
    (handleKey ls0 .down).selected_market = (ls0.selected_market + 1) % markets.length :=
  ⟨by decide, (c7_selection_cycles ls0 (by decide)).2.2.1⟩

/-- C9: an iteration that observes the quit key sets `should_quit` in that
same iteration, and the loop body never runs again afterwards — whatever
messages remain queued, the state (window store included) is unchanged. -/
theorem c9_quit_halts (st : LoopState) (msg : Option Message)
    (es : List (Option Message × Option KeyIn)) :
    (loopIter st msg (some .charQ)).should_quit = true ∧
    runLoop (loopIter st msg (some .charQ)) es = loopIter st msg (some .charQ) := by
  have h1 : (loopIter st msg (some .charQ)).should_quit = true := rfl
  refine ⟨h1, ?_⟩
  cases es with
  | nil => rfl
  | cons e es => simp [runLoop, h1]

/-- C10: a candle for an unregistered market leaves every window and every
stored price change untouched, yet still records the candle's close in the
latest-price map. -/
theorem c10_unknown_market (st : Store) (market : String) (c : Candle)
    (h : st.data market = none) :
    (ingest st market c).data = st.data ∧
    (ingest st market c).price_changes = st.price_changes ∧
    (ingest st market c).latest_price_map = mapInsert st.latest_price_map market c.close ∧
    (ingest st market c).latest_price_map market = some c.close := by
  unfold ingest
  rw [h]
  exact ⟨rfl, rfl, rfl, by simp [mapInsert]⟩

/-- The ten decimal digit characters occupy code points 48–57. -/
theorem digitChar_bounds : ∀ d : ℕ, d < 10 →
    48 ≤ (Nat.digitChar d).toNat ∧ (Nat.digitChar d).toNat ≤ 57 := by decide

/-- Every character produced by the digit-extraction loop satisfies a
property enjoyed by digit characters and by the characters of the
accumulator. -/
theorem natDigitsAux_mem (P : Char → Prop) (hP : ∀ d : ℕ, d < 10 → P (Nat.digitChar d)) :
    ∀ fuel n : ℕ, ∀ acc : List Char, (∀ ch ∈ acc, P ch) →
      ∀ ch ∈ natDigitsAux fuel n acc, P ch := by
  intro fuel
  induction fuel with
  | zero => intro n acc hacc ch hch; exact hacc ch hch
  | succ fuel ih =>
    intro n acc hacc ch hch
    rw [natDigitsAux] at hch
    by_cases h0 : n = 0
    · rw [if_pos h0] at hch; exact hacc ch hch
    · rw [if_neg h0] at hch
      refine ih (n / 10) _ ?_ ch hch
      intro ch' hch'
      rcases List.mem_cons.mp hch' with h | h
      · exact h ▸ hP (n % 10) (Nat.mod_lt n (by norm_num))
      · exact hacc ch' h

/-- Every character of a decimal digit string is one of `'0'`–`'9'`. -/
theorem natDigits_bounds (n : ℕ) :
    ∀ ch ∈ natDigits n, 48 ≤ ch.toNat ∧ ch.toNat ≤ 57 := by
  unfold natDigits
  by_cases h0 : n = 0
  · rw [if_pos h0]
    intro ch hch
    rw [List.mem_singleton] at hch
    subst hch
    decide
  · rw [if_neg h0]
    exact natDigitsAux_mem _ digitChar_bounds n n [] (by simp)

/-- A digit character is not a `'.'`, a `','` or a `'-'`. -/
theorem digit_ne_special {ch : Char} (h : 48 ≤ ch.toNat ∧ ch.toNat ≤ 57) :
    ch ≠ '.' ∧ ch ≠ ',' ∧ ch ≠ '-' := by
  refine ⟨?_, ?_, ?_⟩ <;> intro he <;> subst he <;> simp at h

/-- Splitting a dot-free string yields that string as the only part. -/
theorem splitOnDot_no_dot (l : List Char) (h : ∀ ch ∈ l, ch ≠ '.') :
    splitOnDot l = [l] := by
  induction l with
  | nil => rfl
  | cons c rest ih =>
    rw [splitOnDot, if_neg (h c (List.mem_cons_self c rest)),
      ih (fun ch hch => h ch (List.mem_cons_of_mem c hch))]

/-- Splitting at the first dot of `l₁ ++ '.' :: l₂` with `l₁` dot-free
separates `l₁` from the remaining split. -/
theorem splitOnDot_append_dot (l₁ l₂ : List Char) (h : ∀ ch ∈ l₁, ch ≠ '.') :
    splitOnDot (l₁ ++ '.' :: l₂) = l₁ :: splitOnDot l₂ := by
  induction l₁ with
  | nil =>
    rw [List.nil_append, splitOnDot, if_pos rfl]
  | cons c rest ih =>
    rw [List.cons_append, splitOnDot, if_neg (h c (List.mem_cons_self c rest)),
      ih (fun ch hch => h ch (List.mem_cons_of_mem c hch))]

/-- The accumulator length never decreases along the digit loop. -/
theorem natDigitsAux_length_le :
    ∀ fuel n : ℕ, ∀ acc : List Char, acc.length ≤ (natDigitsAux fuel n acc).length := by
  intro fuel
  induction fuel with
  | zero => intro n acc; exact Nat.le_refl _
  | succ fuel ih =>
    intro n acc
    rw [natDigitsAux]
    by_cases h0 : n = 0
    · rw [if_pos h0]
    · rw [if_neg h0]
      calc acc.length ≤ (Nat.digitChar (n % 10) :: acc).length := by simp
        _ ≤ _ := ih (n / 10) _

/-- A decimal digit string is never empty. -/
theorem natDigits_length_pos (n : ℕ) : 0 < (natDigits n).length := by
  unfold natDigits
  by_cases h0 : n = 0
  · rw [if_pos h0]; simp
  · rw [if_neg h0]
    obtain ⟨m, rfl⟩ := Nat.exists_eq_succ_of_ne_zero h0
    rw [natDigitsAux, if_neg (Nat.succ_ne_zero m)]
    calc 0 < (Nat.digitChar ((m + 1) % 10) :: ([] : List Char)).length := by simp
      _ ≤ _ := natDigitsAux_length_le m ((m + 1) / 10) _

/-- The rounding of a non-negative rational is non-negative. -/
theorem roundHalfEven_nonneg (q : ℚ) (h : 0 ≤ q) : 0 ≤ roundHalfEven q := by
  unfold roundHalfEven
  rw [ratFloor_eq_floor]
  have h0 : (0 : ℤ) ≤ ⌊q⌋ := Int.floor_nonneg.mpr h
  dsimp only
  split_ifs <;> omega

/-- Rounding rule: `f64::round` of a non-negative rational is non-negative. -/
theorem roundHalfAway_nonneg (q : ℚ) (h : 0 ≤ q) : 0 ≤ roundHalfAway q := by
  unfold roundHalfAway
  rw [if_pos h, ratFloor_eq_floor]
  exact Int.floor_nonneg.mpr (by linarith)

/-- The fractional part produced by `fixedParts` has exactly `k` digits. -/
theorem fixedParts_snd_length (q : ℚ) (k : ℕ) : (fixedParts q k).2.length = k := by
  unfold fixedParts
  dsimp only
  rw [List.length_drop, List.length_append, List.length_replicate]
  have := natDigits_length_pos (roundHalfEven (q * (10 : ℚ) ^ k)).natAbs
  omega

/-- Every character of either part of `fixedParts` is a decimal digit. -/
theorem fixedParts_bounds (q : ℚ) (k : ℕ) :
    (∀ ch ∈ (fixedParts q k).1, 48 ≤ ch.toNat ∧ ch.toNat ≤ 57) ∧
    (∀ ch ∈ (fixedParts q k).2, 48 ≤ ch.toNat ∧ ch.toNat ≤ 57) := by
  unfold fixedParts
  dsimp only
  have hs : ∀ ch ∈ List.replicate
      (k + 1 - (natDigits (roundHalfEven (q * (10 : ℚ) ^ k)).natAbs).length) '0' ++
      natDigits (roundHalfEven (q * (10 : ℚ) ^ k)).natAbs,
      48 ≤ ch.toNat ∧ ch.toNat ≤ 57 := by
    intro ch hch
    rcases List.mem_append.mp hch with h | h
    · rw [List.eq_of_mem_replicate h]; decide
    · exact natDigits_bounds _ ch h
  exact ⟨fun ch hch => hs ch (List.take_subset _ _ hch),
    fun ch hch => hs ch (List.drop_subset _ _ hch)⟩

/-- For positive precision and a non-negative argument, `fmtFixed` is the
integer part, a dot, and the `k`-digit fractional part. -/
theorem fmtFixed_eq_parts (q : ℚ) (k : ℕ) (hk : k ≠ 0) (hq : 0 ≤ q) :
    fmtFixed q k = (fixedParts q k).1 ++ '.' :: (fixedParts q k).2 := by
  unfold fmtFixed
  have hnn : 0 ≤ roundHalfEven (q * (10 : ℚ) ^ k) :=
    roundHalfEven_nonneg _ (mul_nonneg hq (pow_nonneg (by norm_num) k))
  rw [if_neg (by omega), if_neg hk, List.nil_append]

/-- Chunking a non-empty list yields at least one chunk. -/
theorem chunk3_ne_nil (l : List Char) (h : l ≠ []) : chunk3 l ≠ [] := by
  cases l with
  | nil => exact absurd rfl h
  | cons a t =>
    cases t with
    | nil => simp [chunk3]
    | cons b t2 =>
      cases t2 with
      | nil => simp [chunk3]
      | cons c r => simp [chunk3]

/-- A non-empty list of at most three characters is its own single chunk. -/
theorem chunk3_short (l : List Char) (h : l ≠ []) (h3 : l.length ≤ 3) :
    chunk3 l = [l] := by
  cases l with
  | nil => exact absurd rfl h
  | cons a t =>
    cases t with
    | nil => rfl
    | cons b t2 =>
      cases t2 with
      | nil => rfl
      | cons c r =>
        cases r with
        | nil => rfl
        | cons d r2 => simp at h3

/-- Joining a single part inserts no separator. -/
theorem intercalate_single (sep : Char) (x : List Char) :
    List.intercalate [sep] [x] = x := by
  simp [List.intercalate]

/-- Joining a part onto a non-empty tail inserts one separator after it. -/
theorem intercalate_cons (sep : Char) (x : List Char) (ys : List (List Char)) (h : ys ≠ []) :
    List.intercalate [sep] (x :: ys) = x ++ sep :: List.intercalate [sep] ys := by
  cases ys with
  | nil => exact absurd rfl h
  | cons z zs => simp [List.intercalate, List.intersperse]

/-- Grouping leaves a string of at most three characters unchanged. -/
theorem groupRight_short (sep : Char) (s : List Char) (h3 : s.length ≤ 3) :
    groupRight sep s = s := by
  by_cases h : s = []
  · subst h; rfl
  · unfold groupRight
    rw [chunk3_short s.reverse (by simpa using h) (by simpa using h3),
      intercalate_single, List.reverse_reverse]

/-- Grouping a string longer than three characters separates its last three
characters and groups the remainder. -/
theorem groupRight_step (sep : Char) (s : List Char) (h : 3 < s.length) :
    groupRight sep s =
      groupRight sep (s.take (s.length - 3)) ++ sep :: s.drop (s.length - 3) := by
  have hdl : (s.drop (s.length - 3)).length = 3 := by
    rw [List.length_drop]; omega
  obtain ⟨a, b, c, habc⟩ := List.length_eq_three.mp hdl
  have htl : (s.take (s.length - 3)).length = s.length - 3 := by
    rw [List.length_take]; omega
  have htne : s.take (s.length - 3) ≠ [] := by
    intro hnil
    rw [hnil] at htl
    simp at htl
    omega
  have hsplit : s.reverse = [c, b, a] ++ (s.take (s.length - 3)).reverse := by
    conv =>
      lhs
      rw [← List.take_append_drop (s.length - 3) s]
    rw [List.reverse_append, habc]
    rfl
  unfold groupRight
  rw [hsplit]
  have hchunk : chunk3 ([c, b, a] ++ (s.take (s.length - 3)).reverse) =
      [c, b, a] :: chunk3 (s.take (s.length - 3)).reverse := rfl
  rw [hchunk,
    intercalate_cons sep [c, b, a] _ (chunk3_ne_nil _ (by simpa using htne))]
  simp [habc]

/-- The `format_idr` loop computes right-grouping with `.` separators, for
any fuel at least covering the iteration count. -/
theorem idrLoopF_eq_groupRight :
    ∀ fuel : ℕ, ∀ s result : List Char, s.length ≤ fuel + 3 →
      idrLoopF fuel s result = groupRight '.' s ++ result := by
  intro fuel
  induction fuel with
  | zero =>
    intro s result h
    rw [idrLoopF, groupRight_short '.' s (by omega)]
  | succ fuel ih =>
    intro s result h
    rw [idrLoopF]
    by_cases h3 : s.length > 3
    · rw [if_pos h3, ih _ _ (by rw [List.length_take]; omega),
        groupRight_step '.' s h3]
      simp
    · rw [if_neg h3, groupRight_short '.' s (by omega)]

/-- Evaluation rule: `format_idr` on a finite value is right-grouping of the signed decimal
string of the saturating-cast rounding. -/
theorem format_idr_eq_groupRight (q : ℚ) :
    format_idr (.finite q) =
      String.mk (groupRight '.' (intChars (castI64 (roundHalfAway q)))) := by
  unfold format_idr
  dsimp only
  rw [idrLoopF_eq_groupRight _ _ _ (by omega), List.append_nil]

/-- The sign characters are not dots. -/
theorem sign_no_dot (p : ℚ) : ∀ ch ∈ (if p < 0 then ['-'] else ([] : List Char)), ch ≠ '.' := by
  intro ch hch
  by_cases hp : p < 0
  · rw [if_pos hp, List.mem_singleton] at hch
    subst hch
    decide
  · rw [if_neg hp] at hch
    simp at hch

/-- Splitting the mid-range formatted string at its dot: the part before is
the sign plus the integer digits, the part after is the two fraction
digits. -/
theorem splitOnDot_sign_fmtFixed (p : ℚ) :
    splitOnDot ((if p < 0 then ['-'] else []) ++ fmtFixed |p| 2) =
      ((if p < 0 then ['-'] else []) ++ (fixedParts |p| 2).1) :: [(fixedParts |p| 2).2] := by
  rw [fmtFixed_eq_parts |p| 2 (by norm_num) (abs_nonneg p), ← List.append_assoc,
    splitOnDot_append_dot, splitOnDot_no_dot]
  · intro ch hch
    exact (digit_ne_special ((fixedParts_bounds |p| 2).2 ch hch)).1
  · intro ch hch
    rcases List.mem_append.mp hch with h | h
    · exact sign_no_dot p ch h
    · exact (digit_ne_special ((fixedParts_bounds |p| 2).1 ch h)).1

/-- The sign-plus-integer-part string is ASCII. -/
theorem sign_ip_ascii (p : ℚ) :
    ((if p < 0 then ['-'] else []) ++ (fixedParts |p| 2).1).all
      (fun ch => ch.toNat < 128) = true := by
  simp only [List.all_eq_true, decide_eq_true_eq]
  intro ch hch
  rcases List.mem_append.mp hch with h | h
  · by_cases hp : p < 0
    · rw [if_pos hp, List.mem_singleton] at h
      subst h
      decide
    · rw [if_neg hp] at h
      simp at h
  · have := (fixedParts_bounds |p| 2).1 ch h
    omega

/-- Signed decimal strings are ASCII. -/
theorem intChars_ascii (n : ℤ) :
    (intChars n).all (fun ch => ch.toNat < 128) = true := by
  simp only [List.all_eq_true, decide_eq_true_eq]
  intro ch hch
  unfold intChars at hch
  rcases List.mem_append.mp hch with h | h
  · by_cases hn : n < 0
    · rw [if_pos hn, List.mem_singleton] at h
      subst h
      decide
    · rw [if_neg hn] at h
      simp at h
  · have := natDigits_bounds n.natAbs ch h
    omega

/-- Witness for C10 at a market name absent from `store1`. -/
theorem c10_unknown_market_witness :
    store1.data "XAU/BTC" = none ∧
    (ingest store1 "XAU/BTC" candle1).price_changes = store1.price_changes ∧
    (ingest store1 "XAU/BTC" candle1).latest_price_map "XAU/BTC" = some candle1.close :=
  ⟨by decide,
    (c10_unknown_market store1 "XAU/BTC" candle1 (by decide)).2.1,
    (c10_unknown_market store1 "XAU/BTC" candle1 (by decide)).2.2.2⟩

/-- Counterexample to C4 as stated: at `-999.5` the comma grouping is applied
to the signed string `"-999"`, inserting a comma between the sign and the
digits, so the sign is not preserved as a single leading `-` of the digits. -/
theorem c4_usd_counterexample :
    format_usd (.finite (-999.5)) = "$-,999.50" ∧
    format_usd (.finite (-999.5)) ≠ "$-999.50" :=
  ⟨by decide, by decide⟩

/-- C4 (amended): for finite `x` with `0.10 ≤ |x| < 1000`, `format_usd`
renders `|x|` with exactly two decimals and applies the comma grouping —
every three characters from the right — to the signed integer-part string
(sign included); for positive `x` the integer part has at most four digits
and the sign is empty, while for negative `x` with three-digit integer part
a comma lands between the sign and the digits. -/
theorem c4_usd_midrange (q : ℚ) (h1 : 1/10 ≤ |q|) (h2 : |q| < 1000) :
    format_usd (.finite q) =
      String.mk ('$' :: groupRight ','
          ((if q < 0 then ['-'] else []) ++ (fixedParts |q| 2).1)
        ++ '.' :: (fixedParts |q| 2).2) ∧
    (fixedParts |q| 2).2.length = 2 := by
  have hq0 : q ≠ 0 := by
    intro h
    rw [h, abs_zero] at h1
    norm_num at h1
  have hb1 : ¬ (|q| ≥ 1000000000) := not_le.mpr (h2.trans_le (by norm_num))
  have hb2 : ¬ (|q| ≥ 1000000) := not_le.mpr (h2.trans_le (by norm_num))
  have hb3 : ¬ (|q| ≥ 1000) := not_le.mpr h2
  unfold format_usd
  dsimp only
  rw [if_neg hq0, if_neg hb1, if_neg hb2, if_neg hb3, if_pos h1, if_pos ⟨h2, h1⟩,
    splitOnDot_sign_fmtFixed q]
  exact ⟨rfl, fixedParts_snd_length |q| 2⟩

/-- Witness for C4's amended statement at `-999.5`. -/
theorem c4_usd_midrange_witness :
    (1/10 : ℚ) ≤ |(-999.5 : ℚ)| ∧ |(-999.5 : ℚ)| < 1000 ∧
    format_usd (.finite (-999.5)) =
      String.mk ('$' :: groupRight ','
          ((if (-999.5 : ℚ) < 0 then ['-'] else []) ++ (fixedParts |(-999.5 : ℚ)| 2).1)
        ++ '.' :: (fixedParts |(-999.5 : ℚ)| 2).2) :=
  ⟨by decide, by decide, (c4_usd_midrange (-999.5) (by decide) (by decide)).1⟩

/-- Counterexample to C5 as stated: rounding `-123.0` gives the signed string
`"-123"`, four characters, so the loop inserts a `.` directly after the
sign — the spec's grouping of the digit string would give `"-123"`. -/
theorem c5_idr_counterexample :
    format_idr (.finite (-123)) = "-.123" ∧
    format_idr_spec (.finite (-123)) = "-123" ∧
    format_idr (.finite (-123)) ≠ format_idr_spec (.finite (-123)) :=
  ⟨by decide, by decide, by decide⟩

/-- C5 (amended): `format_idr` right-groups the signed decimal string of the
`i64`-saturating rounding with `.` separators every three characters; for
non-negative finite values within `i64` range this coincides with the spec's
formatter (digit-string grouping with sign prefix), and the boundary table
holds, `"Invalid"` on every non-finite input included. -/
theorem c5_idr_formatting :
    (∀ q : ℚ, format_idr (.finite q) =
      String.mk (groupRight '.' (intChars (castI64 (roundHalfAway q))))) ∧
    (∀ q : ℚ, 0 ≤ q → roundHalfAway q ≤ i64_max →
      format_idr (.finite q) = format_idr_spec (.finite q)) ∧
    format_idr (.finite 1729998000) = "1.729.998.000" ∧
    format_idr (.finite 0) = "0" ∧
    format_idr .nan = "Invalid" ∧
    format_idr .inf = "Invalid" ∧
    format_idr .negInf = "Invalid" := by
  refine ⟨format_idr_eq_groupRight, ?_, by decide, by decide, rfl, rfl, rfl⟩
  intro q hq hmax
  have hr : 0 ≤ roundHalfAway q := roundHalfAway_nonneg q hq
  have hcast : castI64 (roundHalfAway q) = roundHalfAway q := by
    unfold castI64 i64_min i64_max
    unfold i64_max at hmax
    omega
  rw [format_idr_eq_groupRight, hcast]
  unfold format_idr_spec intChars
  dsimp only
  rw [if_neg (show ¬ roundHalfAway q < 0 by omega)]
  simp

/-- Witness for C5's amended equivalence at the spec's IDR table value. -/
theorem c5_idr_formatting_witness :
    (0 : ℚ) ≤ 1729998000 ∧ roundHalfAway 1729998000 ≤ i64_max ∧
    format_idr (.finite 1729998000) = format_idr_spec (.finite 1729998000) :=
  ⟨by decide, by decide, c5_idr_formatting.2.1 1729998000 (by decide) (by decide)⟩

/-- C8: both formatters are total — on every input, finite or not, each
source operation that could panic (`parts[0]`/`parts[1]` indexing, byte-chunk
UTF-8 reconstruction, byte-boundary slicing/truncation) succeeds, and the
checked formatters return exactly the total formatters' strings.  (The
round-then-cast itself is saturating, hence total by construction.) -/
theorem c8_formatters_total (x : F64) :
    format_usd_checked x = some (format_usd x) ∧
    format_idr_checked x = some (format_idr x) := by
  constructor
  · cases x with
    | finite p =>
      unfold format_usd_checked format_usd
      dsimp only
      by_cases hp0 : p = 0
      · rw [if_pos hp0, if_pos hp0]
      · rw [if_neg hp0, if_neg hp0]
        by_cases hgrp : |p| < 1000 ∧ |p| ≥ 1/10
        · have hb1 : ¬ (|p| ≥ 1000000000) := not_le.mpr (hgrp.1.trans_le (by norm_num))
          have hb2 : ¬ (|p| ≥ 1000000) := not_le.mpr (hgrp.1.trans_le (by norm_num))
          have hb3 : ¬ (|p| ≥ 1000) := not_le.mpr hgrp.1
          rw [if_pos hgrp, if_pos hgrp, if_neg hb1, if_neg hb2, if_neg hb3,
            if_pos hgrp.2, splitOnDot_sign_fmtFixed p]
          simp only [List.getElem?_cons_zero, List.getElem?_cons_succ]
          rw [if_pos (sign_ip_ascii p)]
          rfl
        · rw [if_neg hgrp, if_neg hgrp]
    | nan => rfl
    | inf => rfl
    | negInf => rfl
  · cases x with
    | finite p =>
      unfold format_idr_checked format_idr
      dsimp only
      rw [if_pos (intChars_ascii (castI64 (roundHalfAway p)))]
    | nan => rfl
    | inf => rfl
    | negInf => rfl

end Chart
